import Mathlib

/-!
Verification of the convolution engine of `image_pthread.c`.

The C program applies a fixed 3×3 kernel to a raster image, splitting the
rows across pthreads.  We embed the program shallowly:

* C `double` arithmetic is idealised as exact rational arithmetic (`ℚ`);
  the kernel constants `1/9.0`, `1.0/16`, … become the corresponding
  rationals.
* The pixel buffer (`uint8_t *data`) is a total function `ℤ → ℕ`; a raster
  whose bytes are genuine `uint8_t` values satisfies `∀ i, data i < 256`,
  which theorems assume where it matters.
* The implicit C narrowing `uint8_t r = <double>` truncates the sum toward
  zero and keeps the low 8 bits (the wrap-around the spec documents).
* The parallel execution is modelled by running the per-thread bands in
  sequence: the bands write disjoint regions of the destination, so the
  sequential composition computes the same buffer as the parallel run.
* `image.h` is not among the sources; the `Index` macro, the `Matrix`
  type and the `KernelTypes` enumeration are modelled from the spec
  (row-major, pixel-major, channel-minor layout; 3×3 matrix of weights;
  the six kernel names in the order of the `algorithms` table).
-/

namespace ImagePthread

/-- Modelled from the spec: `image.h` (absent from the sources) defines
`Matrix` as a 3×3 matrix of floating-point weights; doubles are idealised
as rationals. -/
def Matrix := Fin 3 → Fin 3 → ℚ

/-- Modelled from the spec: the `Index` macro of `image.h`.  The byte for
pixel (x, y), channel `bit`, sits at `((y*width + x)*bpp) + bit`
(row-major, pixel-major, channel-minor). -/
def Index (x y width bit bpp : ℤ) : ℤ :=
  (y * width + x) * bpp + bit

/-- The `Image` struct: width, height, bits per pixel (channel count) and
the byte buffer. -/
structure Image where
  width : ℤ
  height : ℤ
  bpp : ℤ
  data : ℤ → ℕ

/-- Truncation of a rational toward zero (the C `double` → integer
conversion). -/
def ratTrunc (q : ℚ) : ℤ :=
  q.num.tdiv q.den

/-- Narrowing a `double` sum into `uint8_t`: truncate toward zero, keep the
low 8 bits. -/
def narrowToByte (q : ℚ) : ℕ :=
  (ratTrunc q % 256).toNat

/-- `getPixelValue` from `image_pthread.c` (lines 40–61): clamp the four
neighbour coordinates, then accumulate the nine weighted samples and
narrow the sum into a byte. -/
def getPixelValue (srcImage : Image) (x y bit : ℤ) (algorithm : Matrix) : ℕ :=
  let px0 := x + 1
  let py0 := y + 1
  let mx0 := x - 1
  let my0 := y - 1
  let mx := if mx0 < 0 then 0 else mx0
  let my := if my0 < 0 then 0 else my0
  let px := if px0 ≥ srcImage.width then srcImage.width - 1 else px0
  let py := if py0 ≥ srcImage.height then srcImage.height - 1 else py0
  narrowToByte
    (algorithm 0 0 * srcImage.data (Index mx my srcImage.width bit srcImage.bpp) +
     algorithm 0 1 * srcImage.data (Index x  my srcImage.width bit srcImage.bpp) +
     algorithm 0 2 * srcImage.data (Index px my srcImage.width bit srcImage.bpp) +
     algorithm 1 0 * srcImage.data (Index mx y  srcImage.width bit srcImage.bpp) +
     algorithm 1 1 * srcImage.data (Index x  y  srcImage.width bit srcImage.bpp) +
     algorithm 1 2 * srcImage.data (Index px y  srcImage.width bit srcImage.bpp) +
     algorithm 2 0 * srcImage.data (Index mx py srcImage.width bit srcImage.bpp) +
     algorithm 2 1 * srcImage.data (Index x  py srcImage.width bit srcImage.bpp) +
     algorithm 2 2 * srcImage.data (Index px py srcImage.width bit srcImage.bpp))

/-- Overwrite one byte of an image buffer. -/
def writeByte (img : Image) (i : ℤ) (v : ℕ) : Image :=
  { img with data := fun j => if j = i then v else img.data j }

/-- The integers `s, s+1, …, e-1` (empty when `e ≤ s`): the rows or
column indices a C `for` loop visits. -/
def rowsOf (s e : ℤ) : List ℤ :=
  (List.range (e - s).toNat).map (fun k : ℕ => s + (k : ℤ))

/-- `thread_convolute` (lines 77–93): for each row of the band, each pixel
of the row, each channel of the pixel, store the convolved value in the
destination. -/
def thread_convolute (src : Image) (alg : Matrix) (start_row end_row : ℤ)
    (dest : Image) : Image :=
  (rowsOf start_row end_row).foldl (fun d row =>
    (rowsOf 0 src.width).foldl (fun d2 pix =>
      (rowsOf 0 src.bpp).foldl (fun d3 bit =>
        writeByte d3 (Index pix row src.width bit src.bpp)
          (getPixelValue src pix row bit alg)) d2) d) dest

/-- `convolute` (lines 98–124): split the `height` rows into
`num_threads` contiguous bands (`rows_per_thread = height / N` rows each,
the first `height % N` bands getting one extra row) and run
`thread_convolute` on each.  The C source fixes `num_threads = 4`
(`/* change if you want more/less */`); the worker count is the
parameter here.  Threads write disjoint bands, so running them in
sequence yields the buffer the parallel program produces. -/
def convolute (num_threads : ℕ) (src : Image) (dest : Image)
    (alg : Matrix) : Image :=
  let rows_per_thread := src.height.tdiv num_threads
  let remainder := src.height.tmod num_threads
  ((List.range num_threads).foldl (fun (st : Image × ℤ) (i : ℕ) =>
      let start_row := st.2
      let extra : ℤ := if (i : ℤ) < remainder then 1 else 0
      let end_row := start_row + rows_per_thread + extra
      (thread_convolute src alg start_row end_row st.1, end_row))
    (dest, 0)).1

/-- The list of `(start_row, end_row)` band descriptors the loop of
`convolute` assigns to the workers, in order. -/
def bandList (height : ℤ) (num_threads : ℕ) : List (ℤ × ℤ) :=
  let rows_per_thread := height.tdiv num_threads
  let remainder := height.tmod num_threads
  (((List.range num_threads).foldl (fun (st : List (ℤ × ℤ) × ℤ) (i : ℕ) =>
      let start_row := st.2
      let extra : ℤ := if (i : ℤ) < remainder then 1 else 0
      let end_row := start_row + rows_per_thread + extra
      (st.1 ++ [(start_row, end_row)], end_row))
    ([], 0))).1

/-- The `KernelTypes` enumeration, modelled from the spec: the six kernels
in the order of the `algorithms` table. -/
inductive KernelTypes where
  | EDGE
  | SHARPEN
  | BLUR
  | GAUSE_BLUR
  | EMBOSS
  | IDENTITY
  deriving DecidableEq

/-- The `algorithms` kernel table (lines 28–35). -/
def algorithms : KernelTypes → Matrix
  | .EDGE => ![![0, -1, 0], ![-1, 4, -1], ![0, -1, 0]]
  | .SHARPEN => ![![0, -1, 0], ![-1, 5, -1], ![0, -1, 0]]
  | .BLUR => ![![1/9, 1/9, 1/9], ![1/9, 1/9, 1/9], ![1/9, 1/9, 1/9]]
  | .GAUSE_BLUR => ![![1/16, 1/8, 1/16], ![1/8, 1/4, 1/8], ![1/16, 1/8, 1/16]]
  | .EMBOSS => ![![-2, -1, 0], ![-1, 1, 1], ![0, 1, 2]]
  | .IDENTITY => ![![0, 0, 0], ![0, 1, 0], ![0, 0, 0]]

/-- `GetKernelType` (lines 136–144): five recognised names, everything
else falls through to `IDENTITY`. -/
def GetKernelType (type : String) : KernelTypes :=
  if type = "edge" then .EDGE
  else if type = "sharpen" then .SHARPEN
  else if type = "blur" then .BLUR
  else if type = "gauss" then .GAUSE_BLUR
  else if type = "emboss" then .EMBOSS
  else .IDENTITY

/-- Clamp a coordinate into `[0, bound)` (edge replication), as the spec
describes the boundary handling. -/
def clamp (c bound : ℤ) : ℤ :=
  if c < 0 then 0 else if c ≥ bound then bound - 1 else c

/-- The convolution sum as the spec states it: over the nine kernel
positions `(dx, dy) ∈ {-1,0,1} × {-1,0,1}`, weight times the source byte
at the clamped neighbour coordinate. -/
def convSumSpec (src : Image) (x y bit : ℤ) (alg : Matrix) : ℚ :=
  ∑ dy : Fin 3, ∑ dx : Fin 3,
    alg dy dx *
      src.data (Index (clamp (x + (dx : ℤ) - 1) src.width)
                      (clamp (y + (dy : ℤ) - 1) src.height)
                      src.width bit src.bpp)

/-- `convolute` as the source wrote it, with the worker-start failures
made explicit: the source ignores the return value of `pthread_create`
(line 118), so a worker whose creation fails simply never runs — its band
is left unwritten — and `convolute` still returns normally.  `fails i`
says whether creating worker `i` fails. -/
def convoluteWithStartFailures (fails : ℕ → Bool) (num_threads : ℕ)
    (src : Image) (dest : Image) (alg : Matrix) : Image :=
  let rows_per_thread := src.height.tdiv num_threads
  let remainder := src.height.tmod num_threads
  ((List.range num_threads).foldl (fun (st : Image × ℤ) (i : ℕ) =>
      let start_row := st.2
      let extra : ℤ := if (i : ℤ) < remainder then 1 else 0
      let end_row := start_row + rows_per_thread + extra
      (if fails i then st.1
       else thread_convolute src alg start_row end_row st.1, end_row))
    (dest, 0)).1

/-! ### Write-list machinery

`thread_convolute` is a nest of `for` loops each of which performs
`writeByte` stores.  We flatten the nest into an explicit list of
(index, value) stores and characterise the final buffer from that list. -/

/-- Perform a list of byte stores in order. -/
def applyWrites (l : List (ℤ × ℕ)) (d : Image) : Image :=
  l.foldl (fun dd p => writeByte dd p.1 p.2) d

/-- The stores the two inner loops of `thread_convolute` perform for one
row. -/
def rowWrites (src : Image) (alg : Matrix) (row : ℤ) : List (ℤ × ℕ) :=
  (rowsOf 0 src.width).flatMap (fun pix =>
    (rowsOf 0 src.bpp).map (fun bit =>
      (Index pix row src.width bit src.bpp, getPixelValue src pix row bit alg)))

/-- The stores `thread_convolute` performs for the band `[s, e)`. -/
def bandWrites (src : Image) (alg : Matrix) (s e : ℤ) : List (ℤ × ℕ) :=
  (rowsOf s e).flatMap (rowWrites src alg)

theorem writeByte_width (d : Image) (i : ℤ) (v : ℕ) :
    (writeByte d i v).width = d.width := rfl

theorem applyWrites_nil (d : Image) : applyWrites [] d = d := rfl

theorem applyWrites_cons (p : ℤ × ℕ) (l : List (ℤ × ℕ)) (d : Image) :
    applyWrites (p :: l) d = applyWrites l (writeByte d p.1 p.2) := rfl

theorem applyWrites_append (l1 l2 : List (ℤ × ℕ)) (d : Image) :
    applyWrites (l1 ++ l2) d = applyWrites l2 (applyWrites l1 d) := by
  simp [applyWrites, List.foldl_append]

/-- A store list leaves untargeted positions alone. -/
theorem applyWrites_data_notMem (l : List (ℤ × ℕ)) (d : Image) (i : ℤ)
    (h : ∀ p ∈ l, p.1 ≠ i) :
    (applyWrites l d).data i = d.data i := by
  induction l generalizing d with
  | nil => rfl
  | cons p t ih =>
      rw [applyWrites_cons, ih _ (fun q hq => h q (List.mem_cons_of_mem _ hq))]
      simp [writeByte]
      intro hpi
      exact absurd hpi.symm (h p (List.mem_cons_self _ _))

/-- If every store aimed at `i` stores the value `v` and at least one
store aims at `i`, the final buffer holds `v` at `i`. -/
theorem applyWrites_data_mem (l : List (ℤ × ℕ)) (d : Image) (i : ℤ) (v : ℕ)
    (hmem : i ∈ l.map Prod.fst) (hval : ∀ p ∈ l, p.1 = i → p.2 = v) :
    (applyWrites l d).data i = v := by
  induction l generalizing d with
  | nil => simp at hmem
  | cons p t ih =>
      rw [applyWrites_cons]
      by_cases ht : i ∈ t.map Prod.fst
      · exact ih _ ht (fun q hq => hval q (List.mem_cons_of_mem _ hq))
      · have hp : p.1 = i := by
          simp only [List.map_cons, List.mem_cons] at hmem
          rcases hmem with h1 | h2
          · exact h1.symm
          · exact absurd h2 ht
        have hnot : ∀ q ∈ t, q.1 ≠ i := by
          intro q hq hqi
          exact ht (List.mem_map.mpr ⟨q, hq, hqi⟩)
        rw [applyWrites_data_notMem _ _ _ hnot]
        simp [writeByte, hp, hval p (List.mem_cons_self _ _) hp]

/-- Flattening a loop whose body is itself a batch of stores. -/
theorem foldl_applyWrites_flatMap {α : Type} (l : List α)
    (F : α → List (ℤ × ℕ)) (d : Image) :
    l.foldl (fun dd a => applyWrites (F a) dd) d
      = applyWrites (l.flatMap F) d := by
  induction l generalizing d with
  | nil => rfl
  | cons a t ih =>
      simp only [List.foldl_cons, List.flatMap_cons, applyWrites_append]
      exact ih _

/-- Flattening an innermost loop of single stores. -/
theorem foldl_writeByte_map {α : Type} (l : List α)
    (f : α → ℤ) (g : α → ℕ) (d : Image) :
    l.foldl (fun dd a => writeByte dd (f a) (g a)) d
      = applyWrites (l.map (fun a => (f a, g a))) d := by
  induction l generalizing d with
  | nil => rfl
  | cons a t ih =>
      simp only [List.foldl_cons, List.map_cons, applyWrites_cons]
      exact ih _

/-- `thread_convolute` is the batch of stores `bandWrites`. -/
theorem thread_convolute_eq_applyWrites (src : Image) (alg : Matrix)
    (s e : ℤ) (dest : Image) :
    thread_convolute src alg s e dest = applyWrites (bandWrites src alg s e) dest := by
  unfold thread_convolute bandWrites
  rw [← foldl_applyWrites_flatMap]
  congr 1
  funext d row
  unfold rowWrites
  rw [← foldl_applyWrites_flatMap]
  congr 1
  funext d2 pix
  rw [← foldl_writeByte_map]

/-! ### Basic facts about `rowsOf`, `Index` and the band layout -/

theorem rowsOf_mem {s e y : ℤ} : y ∈ rowsOf s e ↔ s ≤ y ∧ y < e := by
  simp only [rowsOf, List.mem_map, List.mem_range]
  constructor
  · rintro ⟨k, hk, rfl⟩
    omega
  · intro h
    exact ⟨(y - s).toNat, by omega, by omega⟩

theorem rowsOf_self (s : ℤ) : rowsOf s s = [] := by
  simp [rowsOf]

theorem rowsOf_append {s m e : ℤ} (h1 : s ≤ m) (h2 : m ≤ e) :
    rowsOf s m ++ rowsOf m e = rowsOf s e := by
  unfold rowsOf
  have hsplit : (e - s).toNat = (m - s).toNat + (e - m).toNat := by omega
  rw [hsplit, List.range_add, List.map_append, List.map_map]
  congr 1
  refine List.map_congr_left (fun k hk => ?_)
  simp only [Function.comp_apply]
  omega

/-- Uniqueness of Euclidean decomposition: `p*m + b` with `b ∈ [0, m)`
determines `p` and `b`. -/
theorem euclid_unique {m p1 b1 p2 b2 : ℤ} (hm : 0 < m)
    (hb1 : 0 ≤ b1) (hb1m : b1 < m) (hb2 : 0 ≤ b2) (hb2m : b2 < m)
    (heq : p1 * m + b1 = p2 * m + b2) : p1 = p2 ∧ b1 = b2 := by
  have hp : p1 = p2 := by
    by_contra hne
    rcases lt_or_gt_of_ne hne with hlt | hgt
    · have h1 : p1 + 1 ≤ p2 := hlt
      have h2 : (p1 + 1) * m ≤ p2 * m :=
        mul_le_mul_of_nonneg_right h1 hm.le
      linarith
    · have h1 : p2 + 1 ≤ p1 := hgt
      have h2 : (p2 + 1) * m ≤ p1 * m :=
        mul_le_mul_of_nonneg_right h1 hm.le
      linarith
  subst hp
  exact ⟨rfl, by omega⟩

/-- The buffer layout is injective on in-range pixel and channel indices
(the row index need not be bounded). -/
theorem Index_inj {w bpp x1 y1 b1 x2 y2 b2 : ℤ} (hw : 0 < w) (hb : 0 < bpp)
    (hx1 : 0 ≤ x1) (hx1w : x1 < w) (hb1 : 0 ≤ b1) (hb1b : b1 < bpp)
    (hx2 : 0 ≤ x2) (hx2w : x2 < w) (hb2 : 0 ≤ b2) (hb2b : b2 < bpp)
    (heq : Index x1 y1 w b1 bpp = Index x2 y2 w b2 bpp) :
    x1 = x2 ∧ y1 = y2 ∧ b1 = b2 := by
  unfold Index at heq
  obtain ⟨hpix, hbit⟩ := euclid_unique hb hb1 hb1b hb2 hb2b heq
  obtain ⟨hy, hx⟩ := euclid_unique hw hx1 hx1w hx2 hx2w hpix
  exact ⟨hx, hy, hbit⟩

/-- The row where band `i` starts: `i` full bands of `height / N` rows,
plus one extra row for each of the first `min i (height % N)` bands. -/
def bandStart (height : ℤ) (num_threads : ℕ) (i : ℕ) : ℤ :=
  (i : ℤ) * height.tdiv num_threads + min (i : ℤ) (height.tmod num_threads)

theorem bandStart_zero {height : ℤ} (N : ℕ) (hh : 0 ≤ height) :
    bandStart height N 0 = 0 := by
  have := Int.tmod_nonneg (N : ℤ) hh
  simp [bandStart]
  omega

theorem bandStart_succ (height : ℤ) (N : ℕ) (i : ℕ) :
    bandStart height N (i + 1)
      = bandStart height N i + height.tdiv N
        + (if (i : ℤ) < height.tmod N then 1 else 0) := by
  unfold bandStart
  by_cases h : (i : ℤ) < height.tmod N
  · rw [if_pos h]
    have hmin : min ((i : ℤ) + 1) (height.tmod N)
        = min (i : ℤ) (height.tmod N) + 1 := by omega
    push_cast
    rw [hmin]
    ring
  · rw [if_neg h]
    have hmin : min ((i : ℤ) + 1) (height.tmod N)
        = min (i : ℤ) (height.tmod N) := by omega
    push_cast
    rw [hmin]
    ring

theorem bandStart_nonneg {height : ℤ} (N : ℕ) (i : ℕ) (hh : 0 ≤ height) :
    0 ≤ bandStart height N i := by
  have h1 : 0 ≤ height.tdiv N := Int.tdiv_nonneg hh (by positivity)
  have h2 : 0 ≤ height.tmod N := Int.tmod_nonneg _ hh
  have h3 : 0 ≤ (i : ℤ) * height.tdiv N := mul_nonneg (by positivity) h1
  unfold bandStart
  omega

theorem bandStart_mono {height : ℤ} (N : ℕ) {i j : ℕ} (hh : 0 ≤ height)
    (hij : i ≤ j) : bandStart height N i ≤ bandStart height N j := by
  induction j with
  | zero =>
      have : i = 0 := Nat.le_zero.mp hij
      simp [this]
  | succ j ih =>
      rcases Nat.lt_or_ge i (j + 1) with hlt | hge
      · have h1 : 0 ≤ height.tdiv N := Int.tdiv_nonneg hh (by positivity)
        have := ih (Nat.lt_succ_iff.mp hlt)
        rw [bandStart_succ]
        have : (0 : ℤ) ≤ if (j : ℤ) < height.tmod N then 1 else 0 := by
          split <;> omega
        omega
      · have : i = j + 1 := le_antisymm hij hge
        simp [this]

theorem bandStart_last {height : ℤ} {N : ℕ} (hh : 0 ≤ height) (hN : 1 ≤ N) :
    bandStart height N N = height := by
  have hN0 : (0 : ℤ) < (N : ℤ) := by exact_mod_cast hN
  have hdiv : height.tdiv N = height / (N : ℤ) :=
    Int.tdiv_eq_ediv hh hN0.le
  have hmod : height.tmod N = height % (N : ℤ) :=
    Int.tmod_eq_emod hh hN0.le
  have hlt : height % (N : ℤ) < N := Int.emod_lt_of_pos _ hN0
  have hge : 0 ≤ height % (N : ℤ) := Int.emod_nonneg _ (by omega)
  have hid : (N : ℤ) * (height / (N : ℤ)) + height % (N : ℤ) = height :=
    Int.ediv_add_emod _ _
  unfold bandStart
  rw [hdiv, hmod, min_eq_right hlt.le]
  linarith [hid]

/-- Consecutive bands compose into one band. -/
theorem thread_convolute_compose (src : Image) (alg : Matrix) {s m e : ℤ}
    (h1 : s ≤ m) (h2 : m ≤ e) (d : Image) :
    thread_convolute src alg m e (thread_convolute src alg s m d)
      = thread_convolute src alg s e d := by
  rw [thread_convolute_eq_applyWrites, thread_convolute_eq_applyWrites,
      thread_convolute_eq_applyWrites, ← applyWrites_append]
  congr 1
  unfold bandWrites
  rw [← List.flatMap_append, rowsOf_append h1 h2]

/-- The loop of `convolute`, after `n` iterations: the first
`bandStart n` rows have been convolved and the next band starts there. -/
theorem convolute_fold_inv (N : ℕ) (src dest : Image) (alg : Matrix)
    (hh : 0 ≤ src.height) (n : ℕ) :
    ((List.range n).foldl (fun (st : Image × ℤ) (i : ℕ) =>
        let start_row := st.2
        let extra : ℤ := if (i : ℤ) < src.height.tmod N then 1 else 0
        let end_row := start_row + src.height.tdiv N + extra
        (thread_convolute src alg start_row end_row st.1, end_row))
      (dest, 0))
    = (thread_convolute src alg 0 (bandStart src.height N n) dest,
       bandStart src.height N n) := by
  induction n with
  | zero =>
      rw [bandStart_zero N hh]
      simp [thread_convolute, rowsOf_self]
  | succ n ih =>
      rw [List.range_succ, List.foldl_append, ih]
      simp only [List.foldl_cons, List.foldl_nil]
      have hstep := bandStart_succ src.height N n
      have hmono : bandStart src.height N n ≤ bandStart src.height N (n + 1) :=
        bandStart_mono N hh (Nat.le_succ n)
      have hnn : 0 ≤ bandStart src.height N n := bandStart_nonneg N n hh
      rw [Prod.mk.injEq]
      constructor
      · rw [show bandStart src.height N n + src.height.tdiv ↑N
              + (if (n : ℤ) < src.height.tmod ↑N then 1 else 0)
            = bandStart src.height N (n + 1) from hstep.symm]
        exact thread_convolute_compose src alg hnn hmono dest
      · omega

/-- `convolute` with any worker count performs exactly the sequential
convolution of all rows. -/
theorem convolute_eq_thread {N : ℕ} (hN : 1 ≤ N) (src dest : Image)
    (alg : Matrix) (hh : 0 ≤ src.height) :
    convolute N src dest alg
      = thread_convolute src alg 0 src.height dest := by
  have h := convolute_fold_inv N src dest alg hh N
  unfold convolute
  dsimp only
  dsimp only at h
  rw [h, bandStart_last hh hN]

/-! ### What the destination buffer holds after `convolute` -/

theorem bandWrites_mem {src : Image} {alg : Matrix} {s e : ℤ} {p : ℤ × ℕ} :
    p ∈ bandWrites src alg s e
      ↔ ∃ row pix bit : ℤ,
          (s ≤ row ∧ row < e) ∧ (0 ≤ pix ∧ pix < src.width) ∧
          (0 ≤ bit ∧ bit < src.bpp) ∧
          p = (Index pix row src.width bit src.bpp,
               getPixelValue src pix row bit alg) := by
  simp only [bandWrites, rowWrites, List.mem_flatMap, List.mem_map, rowsOf_mem]
  constructor
  · rintro ⟨row, hrow, pix, hpix, bit, hbit, rfl⟩
    exact ⟨row, pix, bit, hrow, hpix, hbit, rfl⟩
  · rintro ⟨row, pix, bit, hrow, hpix, hbit, rfl⟩
    exact ⟨row, hrow, pix, hpix, bit, hbit, rfl⟩

/-- After the full sequential pass, every in-range position holds the
convolved value. -/
theorem thread_convolute_data_in (src : Image) (alg : Matrix) (dest : Image)
    (hw : 0 < src.width) (hbpp : 0 < src.bpp)
    {x y bit : ℤ} (hx : 0 ≤ x) (hxw : x < src.width)
    (hy : 0 ≤ y) (hyh : y < src.height) (hb : 0 ≤ bit) (hbb : bit < src.bpp) :
    (thread_convolute src alg 0 src.height dest).data
        (Index x y src.width bit src.bpp)
      = getPixelValue src x y bit alg := by
  rw [thread_convolute_eq_applyWrites]
  apply applyWrites_data_mem
  · refine List.mem_map.mpr ⟨(Index x y src.width bit src.bpp,
      getPixelValue src x y bit alg), ?_, rfl⟩
    exact bandWrites_mem.mpr ⟨y, x, bit, ⟨hy, hyh⟩, ⟨hx, hxw⟩, ⟨hb, hbb⟩, rfl⟩
  · intro p hp hfst
    obtain ⟨row, pix, bit2, _, hpix, hbit2, rfl⟩ := bandWrites_mem.mp hp
    obtain ⟨hpx, hpy, hpb⟩ := Index_inj hw hbpp hpix.1 hpix.2 hbit2.1 hbit2.2
      hx hxw hb hbb hfst
    rw [hpx, hpy, hpb]

/-- Positions that are not an in-range `Index` are never written. -/
theorem thread_convolute_data_out (src : Image) (alg : Matrix) (dest : Image)
    {i : ℤ}
    (h : ∀ x y bit : ℤ, 0 ≤ x → x < src.width → 0 ≤ y → y < src.height →
      0 ≤ bit → bit < src.bpp → i ≠ Index x y src.width bit src.bpp) :
    (thread_convolute src alg 0 src.height dest).data i = dest.data i := by
  rw [thread_convolute_eq_applyWrites]
  apply applyWrites_data_notMem
  intro p hp
  obtain ⟨row, pix, bit2, hrow, hpix, hbit2, rfl⟩ := bandWrites_mem.mp hp
  exact fun hi =>
    h pix row bit2 hpix.1 hpix.2 hrow.1 hrow.2 hbit2.1 hbit2.2 hi.symm

/-- The destination buffer produced by `convolute`, at any in-range
position: the convolved value, independent of the worker count. -/
theorem convolute_data_in {N : ℕ} (hN : 1 ≤ N) (src dest : Image)
    (alg : Matrix) (hw : 0 < src.width) (hbpp : 0 < src.bpp)
    {x y bit : ℤ} (hx : 0 ≤ x) (hxw : x < src.width)
    (hy : 0 ≤ y) (hyh : y < src.height) (hb : 0 ≤ bit) (hbb : bit < src.bpp) :
    (convolute N src dest alg).data (Index x y src.width bit src.bpp)
      = getPixelValue src x y bit alg := by
  rw [convolute_eq_thread hN src dest alg (le_of_lt (lt_of_le_of_lt hy hyh))]
  exact thread_convolute_data_in src alg dest hw hbpp hx hxw hy hyh hb hbb

/-! ### Clamping and the spec-side convolution sum -/

theorem clamp_of_lt {c w : ℤ} (hcw : c < w) :
    clamp c w = if c < 0 then 0 else c := by
  unfold clamp
  split_ifs <;> omega

theorem clamp_of_nonneg {c w : ℤ} (hc : 0 ≤ c) :
    clamp c w = if c ≥ w then w - 1 else c := by
  unfold clamp
  split_ifs <;> omega

theorem clamp_of_mem {c w : ℤ} (h0 : 0 ≤ c) (hcw : c < w) :
    clamp c w = c := by
  unfold clamp
  split_ifs <;> omega

/-- The explicit nine-sample expression of `getPixelValue` computes the
spec's clamped-neighbourhood sum. -/
theorem getPixelValue_eq_spec (src : Image) (alg : Matrix) {x y bit : ℤ}
    (hx : 0 ≤ x) (hxw : x < src.width) (hy : 0 ≤ y) (hyh : y < src.height) :
    getPixelValue src x y bit alg = narrowToByte (convSumSpec src x y bit alg) := by
  have hx1 : clamp (x - 1) src.width = (if x - 1 < 0 then 0 else x - 1) :=
    clamp_of_lt (by omega)
  have hx2 : clamp x src.width = x := clamp_of_mem hx hxw
  have hx3 : clamp (x + 1) src.width
      = (if x + 1 ≥ src.width then src.width - 1 else x + 1) :=
    clamp_of_nonneg (by omega)
  have hy1 : clamp (y - 1) src.height = (if y - 1 < 0 then 0 else y - 1) :=
    clamp_of_lt (by omega)
  have hy2 : clamp y src.height = y := clamp_of_mem hy hyh
  have hy3 : clamp (y + 1) src.height
      = (if y + 1 ≥ src.height then src.height - 1 else y + 1) :=
    clamp_of_nonneg (by omega)
  have harith : ∀ z : ℤ, z + 2 - 1 = z + 1 := fun z => by ring
  unfold convSumSpec getPixelValue
  simp only [Fin.sum_univ_three, Fin.val_zero, Fin.val_one, Fin.val_two,
    Nat.cast_zero, Nat.cast_one, Nat.cast_ofNat, add_zero, add_sub_cancel_right,
    harith, hx1, hx2, hx3, hy1, hy2, hy3]
  congr 1
  ring

/-- Narrowing a byte-sized natural is the identity. -/
theorem narrowToByte_natCast {n : ℕ} (hn : n < 256) :
    narrowToByte (n : ℚ) = n := by
  unfold narrowToByte ratTrunc
  rw [Rat.num_natCast, Rat.den_natCast]
  simp only [Nat.cast_one, Int.tdiv_one]
  rw [Int.emod_eq_of_lt (by positivity) (by exact_mod_cast hn)]
  simp

/-- The band descriptors of the `convolute` loop, in closed form. -/
theorem bandList_eq {height : ℤ} (N : ℕ) (hh : 0 ≤ height) :
    bandList height N
      = (List.range N).map
          (fun i => (bandStart height N i, bandStart height N (i + 1))) := by
  unfold bandList
  dsimp only
  suffices h : ∀ n : ℕ,
      ((List.range n).foldl (fun (st : List (ℤ × ℤ) × ℤ) (i : ℕ) =>
          let start_row := st.2
          let extra : ℤ := if (i : ℤ) < height.tmod N then 1 else 0
          let end_row := start_row + height.tdiv N + extra
          (st.1 ++ [(start_row, end_row)], end_row))
        ([], 0))
      = ((List.range n).map
          (fun i => (bandStart height N i, bandStart height N (i + 1))),
         bandStart height N n) by
    rw [h N]
  intro n
  induction n with
  | zero =>
      rw [bandStart_zero N hh]
      simp
  | succ n ih =>
      rw [List.range_succ, List.foldl_append, ih]
      simp only [List.foldl_cons, List.foldl_nil, List.map_append,
        List.map_cons, List.map_nil]
      rw [bandStart_succ]

/-- Every row index in `[0, height)` lies in exactly one of the bands —
here, the existence half. -/
theorem exists_band {height : ℤ} {N : ℕ} (hh : 0 ≤ height) (hN : 1 ≤ N)
    {z : ℤ} (h0 : 0 ≤ z) (hz : z < height) :
    ∃ i : ℕ, i < N ∧ bandStart height N i ≤ z ∧ z < bandStart height N (i + 1) := by
  have hgen : ∀ n : ℕ, z < bandStart height N n →
      ∃ i : ℕ, i < n ∧ bandStart height N i ≤ z ∧ z < bandStart height N (i + 1) := by
    intro n
    induction n with
    | zero =>
        rw [bandStart_zero N hh]
        omega
    | succ n ih =>
        intro hlt
        rcases le_or_lt (bandStart height N n) z with hge | hlt2
        · exact ⟨n, Nat.lt_succ_self n, hge, hlt⟩
        · obtain ⟨i, hi, h1, h2⟩ := ih hlt2
          exact ⟨i, Nat.lt_succ_of_lt hi, h1, h2⟩
  apply hgen N
  rw [bandStart_last hh hN]
  exact hz

/-- A fold whose step never changes the first component. -/
theorem foldl_fst_const {β : Type} (f : Image × ℤ → β → Image × ℤ)
    (hf : ∀ st b, (f st b).1 = st.1) (l : List β) (st : Image × ℤ) :
    (l.foldl f st).1 = st.1 := by
  induction l generalizing st with
  | nil => rfl
  | cons b t ih => rw [List.foldl_cons, ih, hf]

/-- When every worker creation fails, the source's engine still returns —
with the destination raster entirely unwritten. -/
theorem convoluteWithStartFailures_allFail (N : ℕ) (src dest : Image)
    (alg : Matrix) :
    convoluteWithStartFailures (fun _ => true) N src dest alg = dest := by
  unfold convoluteWithStartFailures
  dsimp only
  exact foldl_fst_const _ (fun st b => by simp) _ _

/-! ### Per-kernel pixel facts -/

/-- With the identity kernel the convolved value is the source byte. -/
theorem getPixelValue_identity (src : Image) {x y bit : ℤ}
    (hbyte : src.data (Index x y src.width bit src.bpp) < 256) :
    getPixelValue src x y bit (algorithms .IDENTITY)
      = src.data (Index x y src.width bit src.bpp) := by
  unfold getPixelValue
  have h00 : (algorithms .IDENTITY) 0 0 = 0 := by decide
  have h01 : (algorithms .IDENTITY) 0 1 = 0 := by decide
  have h02 : (algorithms .IDENTITY) 0 2 = 0 := by decide
  have h10 : (algorithms .IDENTITY) 1 0 = 0 := by decide
  have h11 : (algorithms .IDENTITY) 1 1 = 1 := by decide
  have h12 : (algorithms .IDENTITY) 1 2 = 0 := by decide
  have h20 : (algorithms .IDENTITY) 2 0 = 0 := by decide
  have h21 : (algorithms .IDENTITY) 2 1 = 0 := by decide
  have h22 : (algorithms .IDENTITY) 2 2 = 0 := by decide
  simp only [h00, h01, h02, h10, h11, h12, h20, h21, h22,
    zero_mul, one_mul, add_zero, zero_add]
  exact narrowToByte_natCast hbyte

/-- The 4×4 single-channel raster of constant value 100. -/
def uniformRaster4 : Image :=
  { width := 4, height := 4, bpp := 1, data := fun _ => 100 }

/-- An all-zero destination raster of the same shape. -/
def destRaster4 : Image :=
  { width := 4, height := 4, bpp := 1, data := fun _ => 0 }

/-- On the uniform raster every blurred pixel is again 100. -/
theorem getPixelValue_uniform_blur (x y bit : ℤ) :
    getPixelValue uniformRaster4 x y bit (algorithms .BLUR) = 100 := by
  unfold getPixelValue
  have hd : ∀ i : ℤ, uniformRaster4.data i = 100 := fun i => rfl
  have hb : ∀ i j : Fin 3, (algorithms .BLUR) i j = 1/9 := by
    intro i j
    fin_cases i <;> fin_cases j <;> rfl
  simp only [hd, hb]
  norm_num [narrowToByte, ratTrunc]
  decide

/-- `getPixelValue` for channel `c` only looks at channel-`c` bytes of
in-range pixels: two sources of the same shape that agree there convolve
identically at every in-range pixel. -/
theorem getPixelValue_channel_dep (src1 src2 : Image) {x y c : ℤ}
    (alg : Matrix)
    (hw : src2.width = src1.width) (hh : src2.height = src1.height)
    (hbpp : src2.bpp = src1.bpp) (hw1 : 0 < src1.width)
    (hx : 0 ≤ x) (hxw : x < src1.width) (hy : 0 ≤ y) (hyh : y < src1.height)
    (hagree : ∀ p : ℤ, 0 ≤ p → p < src1.height * src1.width →
      src1.data (p * src1.bpp + c) = src2.data (p * src1.bpp + c)) :
    getPixelValue src1 x y c alg = getPixelValue src2 x y c alg := by
  have hread : ∀ a b : ℤ, 0 ≤ a → a < src1.width → 0 ≤ b → b < src1.height →
      src2.data (Index a b src1.width c src1.bpp)
        = src1.data (Index a b src1.width c src1.bpp) := by
    intro a b ha haw hb0 hbh
    unfold Index
    refine (hagree (b * src1.width + a) ?_ ?_).symm
    · have := mul_nonneg hb0 hw1.le
      omega
    · have h1 : b + 1 ≤ src1.height := hbh
      have h2 : (b + 1) * src1.width ≤ src1.height * src1.width :=
        mul_le_mul_of_nonneg_right h1 hw1.le
      linarith
  have hxm : 0 ≤ (if x - 1 < 0 then (0:ℤ) else x - 1)
      ∧ (if x - 1 < 0 then (0:ℤ) else x - 1) < src1.width := by
    split_ifs <;> omega
  have hxp : 0 ≤ (if x + 1 ≥ src1.width then src1.width - 1 else x + 1)
      ∧ (if x + 1 ≥ src1.width then src1.width - 1 else x + 1) < src1.width := by
    split_ifs <;> omega
  have hym : 0 ≤ (if y - 1 < 0 then (0:ℤ) else y - 1)
      ∧ (if y - 1 < 0 then (0:ℤ) else y - 1) < src1.height := by
    split_ifs <;> omega
  have hyp : 0 ≤ (if y + 1 ≥ src1.height then src1.height - 1 else y + 1)
      ∧ (if y + 1 ≥ src1.height then src1.height - 1 else y + 1) < src1.height := by
    split_ifs <;> omega
  unfold getPixelValue
  rw [hw, hh, hbpp]
  dsimp only
  rw [hread _ _ hxm.1 hxm.2 hym.1 hym.2,
      hread _ _ hx hxw hym.1 hym.2,
      hread _ _ hxp.1 hxp.2 hym.1 hym.2,
      hread _ _ hxm.1 hxm.2 hy hyh,
      hread _ _ hx hxw hy hyh,
      hread _ _ hxp.1 hxp.2 hy hyh,
      hread _ _ hxm.1 hxm.2 hyp.1 hyp.2,
      hread _ _ hx hxw hyp.1 hyp.2,
      hread _ _ hxp.1 hxp.2 hyp.1 hyp.2]

/-! ### Concrete rasters used by the witnesses and scenarios -/

/-- The 3×3 single-channel raster `[[0,0,0],[0,255,0],[0,0,0]]`
(byte 4 is the centre pixel). -/
def edgeTestRaster : Image :=
  { width := 3, height := 3, bpp := 1, data := fun i => if i = 4 then 255 else 0 }

/-- An all-zero 3×3 destination raster. -/
def destRaster3 : Image :=
  { width := 3, height := 3, bpp := 1, data := fun _ => 0 }

/-- A 1×1 single-channel source raster of value 0. -/
def oneByOneSrc : Image :=
  { width := 1, height := 1, bpp := 1, data := fun _ => 0 }

/-- A 1×1 single-channel destination raster pre-filled with 7. -/
def oneByOneDst : Image :=
  { width := 1, height := 1, bpp := 1, data := fun _ => 7 }

/-- A 1×1 two-channel raster: channel 0 holds 5, channel 1 holds 9. -/
def chanSrc1 : Image :=
  { width := 1, height := 1, bpp := 2, data := fun i => if i = 1 then 9 else 5 }

/-- Like `chanSrc1` but with 6 in channel 0 — channel 1 agrees. -/
def chanSrc2 : Image :=
  { width := 1, height := 1, bpp := 2, data := fun i => if i = 1 then 9 else 6 }

/-- An all-zero 1×1 two-channel destination raster. -/
def chanDst : Image :=
  { width := 1, height := 1, bpp := 2, data := fun _ => 0 }

/-! ### The claims -/

/-- C1: for every source raster with positive width, height and channel
count, every in-range pixel coordinate and channel index, and every 3×3
kernel, `getPixelValue` returns the narrowing of the sum over the nine
kernel positions of weight times the source byte at the clamped neighbour
coordinate — edge replication, not zero-padding or wrap-around. -/
theorem claim1_pixel_convolution (src : Image) (alg : Matrix) {x y bit : ℤ}
    (hw : 0 < src.width) (hh : 0 < src.height) (hbpp : 0 < src.bpp)
    (hx : 0 ≤ x) (hxw : x < src.width) (hy : 0 ≤ y) (hyh : y < src.height)
    (hb : 0 ≤ bit) (hbb : bit < src.bpp) :
    getPixelValue src x y bit alg = narrowToByte (convSumSpec src x y bit alg) :=
  getPixelValue_eq_spec src alg hx hxw hy hyh

theorem claim1_witness :
    getPixelValue edgeTestRaster 1 1 0 (algorithms .EDGE)
      = narrowToByte (convSumSpec edgeTestRaster 1 1 0 (algorithms .EDGE)) :=
  claim1_pixel_convolution edgeTestRaster (algorithms .EDGE)
    (by decide) (by decide) (by decide) (by decide) (by decide)
    (by decide) (by decide) (by decide) (by decide)

/-- C2: for every source raster and kernel, the banded computation with
any worker count `N ≥ 1` (including `N` greater than the height) produces
a destination raster byte-identical to the single-worker run. -/
theorem claim2_worker_count_invariance {N : ℕ} (hN : 1 ≤ N)
    (src dest : Image) (alg : Matrix) (hh : 0 ≤ src.height) :
    convolute N src dest alg = convolute 1 src dest alg := by
  rw [convolute_eq_thread hN src dest alg hh,
      convolute_eq_thread le_rfl src dest alg hh]

theorem claim2_witness :
    convolute 7 uniformRaster4 destRaster4 (algorithms .BLUR)
      = convolute 1 uniformRaster4 destRaster4 (algorithms .BLUR) :=
  claim2_worker_count_invariance (by decide) uniformRaster4 destRaster4
    (algorithms .BLUR) (by decide)

/-- C3: the partition computes `base = height / N`, `extra = height % N`
(C truncating division, which on nonnegative heights is Euclidean),
gives the first `extra` bands `base + 1` rows and the rest `base`,
lays the bands out contiguously in increasing row order with no gaps or
overlaps, covering `[0, height)` exactly; for height 10 and `N = 3` the
bands are `[0,4)`, `[4,7)`, `[7,10)`. -/
theorem claim3_band_partition {height : ℤ} {N : ℕ}
    (hh : 0 ≤ height) (hN : 1 ≤ N) :
    height.tdiv N = height / (N : ℤ)
    ∧ height.tmod N = height % (N : ℤ)
    ∧ bandList height N
        = (List.range N).map
            (fun i => (bandStart height N i, bandStart height N (i + 1)))
    ∧ (bandList height N).length = N
    ∧ (∀ i : ℕ, i < N →
        bandStart height N (i + 1) - bandStart height N i
          = (if (i : ℤ) < height.tmod N
             then height.tdiv N + 1 else height.tdiv N))
    ∧ bandStart height N 0 = 0
    ∧ bandStart height N N = height
    ∧ (∀ i j : ℕ, i ≤ j → bandStart height N i ≤ bandStart height N j)
    ∧ (∀ z : ℤ, (0 ≤ z ∧ z < height)
        ↔ ∃ i : ℕ, i < N ∧ bandStart height N i ≤ z
            ∧ z < bandStart height N (i + 1))
    ∧ (∀ z : ℤ, ∀ i j : ℕ, i < N → j < N →
        bandStart height N i ≤ z → z < bandStart height N (i + 1) →
        bandStart height N j ≤ z → z < bandStart height N (j + 1) → i = j)
    ∧ bandList 10 3 = [(0, 4), (4, 7), (7, 10)] := by
  have hN0 : (0 : ℤ) < (N : ℤ) := by exact_mod_cast hN
  refine ⟨Int.tdiv_eq_ediv hh hN0.le, Int.tmod_eq_emod hh hN0.le,
    bandList_eq N hh, ?_, ?_, bandStart_zero N hh, bandStart_last hh hN,
    ?_, ?_, ?_, by decide⟩
  · rw [bandList_eq N hh]
    simp
  · intro i hi
    rw [bandStart_succ]
    split_ifs <;> ring
  · intro i j hij
    exact bandStart_mono N hh hij
  · intro z
    constructor
    · rintro ⟨h0, hz⟩
      exact exists_band hh hN h0 hz
    · rintro ⟨i, hiN, h1, h2⟩
      have ha : 0 ≤ bandStart height N i := bandStart_nonneg N i hh
      have hb : bandStart height N (i + 1) ≤ bandStart height N N :=
        bandStart_mono N hh (by omega)
      rw [bandStart_last hh hN] at hb
      omega
  · intro z i j hiN hjN h1 h2 h3 h4
    by_contra hne
    rcases lt_or_gt_of_ne hne with hij | hij
    · have hm : bandStart height N (i + 1) ≤ bandStart height N j :=
        bandStart_mono N hh (by omega)
      omega
    · have hm : bandStart height N (j + 1) ≤ bandStart height N i :=
        bandStart_mono N hh (by omega)
      omega

theorem claim3_witness :
    (0 : ℤ) ≤ 10 ∧ bandList 10 3 = [(0, 4), (4, 7), (7, 10)] :=
  ⟨by decide,
   (claim3_band_partition (show (0:ℤ) ≤ 10 by decide)
     (show 1 ≤ 3 by decide)).2.2.2.2.2.2.2.2.2.2⟩

/-- C4: convolving any raster with the identity kernel yields a
destination whose every in-range byte equals the corresponding source
byte. -/
theorem claim4_identity_noop {N : ℕ} (hN : 1 ≤ N) (src dest : Image)
    (hw : 0 < src.width) (hbpp : 0 < src.bpp)
    (hbytes : ∀ i : ℤ, src.data i < 256)
    {x y bit : ℤ} (hx : 0 ≤ x) (hxw : x < src.width)
    (hy : 0 ≤ y) (hyh : y < src.height) (hb : 0 ≤ bit) (hbb : bit < src.bpp) :
    (convolute N src dest (algorithms .IDENTITY)).data
        (Index x y src.width bit src.bpp)
      = src.data (Index x y src.width bit src.bpp) := by
  rw [convolute_data_in hN src dest (algorithms .IDENTITY) hw hbpp
    hx hxw hy hyh hb hbb]
  exact getPixelValue_identity src (hbytes _)

theorem claim4_witness :
    (convolute 4 edgeTestRaster destRaster3 (algorithms .IDENTITY)).data
        (Index 1 1 edgeTestRaster.width 0 edgeTestRaster.bpp)
      = edgeTestRaster.data (Index 1 1 edgeTestRaster.width 0 edgeTestRaster.bpp) :=
  claim4_identity_noop (by decide) edgeTestRaster destRaster3
    (by decide) (by decide)
    (fun i => by dsimp [edgeTestRaster]; split <;> omega)
    (by decide) (by decide) (by decide) (by decide) (by decide) (by decide)

/-- C5: on the raster `[[0,0,0],[0,255,0],[0,0,0]]` with the edge kernel,
the accumulated sum at the centre pixel is `4*255 = 1020` and the stored
byte is the truncating 8-bit narrowing `1020 mod 256 = 252` — wrap-around,
not saturation. -/
theorem claim5_edge_center_narrowing :
    convSumSpec edgeTestRaster 1 1 0 (algorithms .EDGE) = 1020
    ∧ getPixelValue edgeTestRaster 1 1 0 (algorithms .EDGE) = 252 := by
  constructor
  · norm_num [convSumSpec, Fin.sum_univ_three, clamp, Index, edgeTestRaster,
      algorithms]
  · norm_num [getPixelValue, Index, edgeTestRaster, narrowToByte, ratTrunc,
      algorithms]
    decide

/-- C6 (counterexample): the identifier `gaussian-blur` does not resolve
to the gaussian matrix — the source only recognises `gauss`, so
`gaussian-blur` falls through to the identity kernel. -/
theorem claim6_counterexample :
    GetKernelType "gaussian-blur" = KernelTypes.IDENTITY
    ∧ algorithms (GetKernelType "gaussian-blur")
        ≠ ![![1/16, 1/8, 1/16], ![1/8, 1/4, 1/8], ![1/16, 1/8, 1/16]] := by
  have hk : GetKernelType "gaussian-blur" = KernelTypes.IDENTITY := by decide
  refine ⟨hk, ?_⟩
  intro hcontra
  rw [hk] at hcontra
  have h := congrFun (congrFun hcontra 1) 1
  have hid : algorithms KernelTypes.IDENTITY 1 1 = 1 := by decide
  rw [hid] at h
  norm_num at h

/-- C6 (amended): the lookup maps the identifiers edge, sharpen, blur,
gauss (not gaussian-blur), emboss and identity to their specified 3×3
matrices, and every identifier outside the five recognised strings
resolves to the identity kernel rather than failing. -/
theorem claim6_kernel_lookup_amended :
    GetKernelType "edge" = KernelTypes.EDGE
    ∧ GetKernelType "sharpen" = KernelTypes.SHARPEN
    ∧ GetKernelType "blur" = KernelTypes.BLUR
    ∧ GetKernelType "gauss" = KernelTypes.GAUSE_BLUR
    ∧ GetKernelType "emboss" = KernelTypes.EMBOSS
    ∧ GetKernelType "identity" = KernelTypes.IDENTITY
    ∧ algorithms KernelTypes.EDGE = ![![0,-1,0],![-1,4,-1],![0,-1,0]]
    ∧ algorithms KernelTypes.SHARPEN = ![![0,-1,0],![-1,5,-1],![0,-1,0]]
    ∧ algorithms KernelTypes.BLUR
        = ![![1/9,1/9,1/9],![1/9,1/9,1/9],![1/9,1/9,1/9]]
    ∧ algorithms KernelTypes.GAUSE_BLUR
        = ![![1/16,1/8,1/16],![1/8,1/4,1/8],![1/16,1/8,1/16]]
    ∧ algorithms KernelTypes.EMBOSS = ![![-2,-1,0],![-1,1,1],![0,1,2]]
    ∧ algorithms KernelTypes.IDENTITY = ![![0,0,0],![0,1,0],![0,0,0]]
    ∧ (∀ s : String, s ∉ ["edge", "sharpen", "blur", "gauss", "emboss"] →
        GetKernelType s = KernelTypes.IDENTITY) := by
  refine ⟨by decide, by decide, by decide, by decide, by decide, by decide,
    rfl, rfl, rfl, rfl, rfl, rfl, ?_⟩
  intro s hs
  simp only [List.mem_cons, List.not_mem_nil, or_false, not_or] at hs
  obtain ⟨h1, h2, h3, h4, h5⟩ := hs
  unfold GetKernelType
  rw [if_neg h1, if_neg h2, if_neg h3, if_neg h4, if_neg h5]

theorem claim6_witness :
    GetKernelType "mystery" = KernelTypes.IDENTITY :=
  claim6_kernel_lookup_amended.2.2.2.2.2.2.2.2.2.2.2.2 "mystery" (by decide)

/-- C7: the source ignores the result of `pthread_create`, so when every
worker start fails the engine still returns normally with the destination
raster untouched (byte 0 still holds the initial 7) even though a
completed convolution would store 0 there — the failure is not surfaced. -/
theorem claim7_start_failure_ignored :
    (convoluteWithStartFailures (fun _ => true) 4 oneByOneSrc oneByOneDst
        (algorithms .EDGE)).data 0 = 7
    ∧ (convolute 4 oneByOneSrc oneByOneDst (algorithms .EDGE)).data 0 = 0 := by
  constructor
  · rw [convoluteWithStartFailures_allFail]
    rfl
  · have h := convolute_data_in (show 1 ≤ 4 by decide) oneByOneSrc oneByOneDst
      (algorithms .EDGE) (by decide) (by decide)
      (show (0:ℤ) ≤ 0 from le_rfl) (by decide)
      (show (0:ℤ) ≤ 0 from le_rfl) (by decide)
      (show (0:ℤ) ≤ 0 from le_rfl) (by decide)
    have hidx : Index 0 0 oneByOneSrc.width 0 oneByOneSrc.bpp = 0 := by decide
    rw [hidx] at h
    rw [h]
    norm_num [getPixelValue, oneByOneSrc, narrowToByte, ratTrunc, algorithms,
      Index]

/-- C8: when `0 ≤ height < N` every generated band has
`0 ≤ start ≤ end ≤ height` (so no underflow and no out-of-range row), and
a worker whose band is empty writes nothing. -/
theorem claim8_degenerate_bands {height : ℤ} {N : ℕ}
    (hh : 0 ≤ height) (hN : 1 ≤ N) (hlt : height < (N : ℤ)) :
    (∀ p ∈ bandList height N,
        0 ≤ p.1 ∧ p.1 ≤ p.2 ∧ p.2 ≤ height
          ∧ ∀ row ∈ rowsOf p.1 p.2, 0 ≤ row ∧ row < height)
    ∧ (∀ (src : Image) (alg : Matrix) (s : ℤ) (d : Image),
        thread_convolute src alg s s d = d) := by
  constructor
  · intro p hp
    rw [bandList_eq N hh] at hp
    obtain ⟨i, hi, rfl⟩ := List.mem_map.mp hp
    rw [List.mem_range] at hi
    have h1 : 0 ≤ bandStart height N i := bandStart_nonneg N i hh
    have h2 : bandStart height N i ≤ bandStart height N (i + 1) :=
      bandStart_mono N hh (Nat.le_succ i)
    have h3 : bandStart height N (i + 1) ≤ bandStart height N N :=
      bandStart_mono N hh (by omega)
    rw [bandStart_last hh hN] at h3
    refine ⟨h1, h2, h3, ?_⟩
    intro row hrow
    rw [rowsOf_mem] at hrow
    dsimp only at hrow
    omega
  · intro src alg s d
    simp [thread_convolute, rowsOf_self]

theorem claim8_witness :
    (0 : ℤ) ≤ 2
    ∧ (∀ (src : Image) (alg : Matrix) (s : ℤ) (d : Image),
        thread_convolute src alg s s d = d) :=
  ⟨by decide,
   (claim8_degenerate_bands (show (0:ℤ) ≤ 2 by decide) (show 1 ≤ 5 by decide)
     (show (2:ℤ) < ((5:ℕ):ℤ) by decide)).2⟩

/-- C9: the 4×4 single-channel raster of constant 100, convolved with the
blur kernel using 2 workers, yields 100 at every in-range byte — a uniform
raster is a fixed point of the normalized averaging kernel. -/
theorem claim9_uniform_blur {x y : ℤ} (hx : 0 ≤ x) (hxw : x < 4)
    (hy : 0 ≤ y) (hyh : y < 4) :
    (convolute 2 uniformRaster4 destRaster4 (algorithms .BLUR)).data
        (Index x y 4 0 1) = 100 := by
  have h := convolute_data_in (show 1 ≤ 2 by decide) uniformRaster4 destRaster4
    (algorithms .BLUR) (by decide) (by decide)
    hx (show x < uniformRaster4.width from hxw)
    hy (show y < uniformRaster4.height from hyh)
    (show (0:ℤ) ≤ 0 from le_rfl) (by decide)
  rw [show Index x y 4 0 1
      = Index x y uniformRaster4.width 0 uniformRaster4.bpp from rfl]
  rw [h]
  exact getPixelValue_uniform_blur x y 0

theorem claim9_witness :
    (convolute 2 uniformRaster4 destRaster4 (algorithms .BLUR)).data
        (Index 3 0 4 0 1) = 100 :=
  claim9_uniform_blur (by decide) (by decide) (by decide) (by decide)

/-- C10: channel noninterference — two sources of the same shape that
agree on every in-range byte of channel `c` produce the same destination
byte for channel `c` at every in-range pixel, whatever the other channels
hold. -/
theorem claim10_channel_noninterference {N : ℕ} (hN : 1 ≤ N)
    (src1 src2 dest : Image) (alg : Matrix) {x y c : ℤ}
    (hw : src2.width = src1.width) (hh : src2.height = src1.height)
    (hbpp : src2.bpp = src1.bpp)
    (hw1 : 0 < src1.width) (hbpp1 : 0 < src1.bpp)
    (hx : 0 ≤ x) (hxw : x < src1.width) (hy : 0 ≤ y) (hyh : y < src1.height)
    (hc : 0 ≤ c) (hcb : c < src1.bpp)
    (hagree : ∀ p : ℤ, 0 ≤ p → p < src1.height * src1.width →
      src1.data (p * src1.bpp + c) = src2.data (p * src1.bpp + c)) :
    (convolute N src1 dest alg).data (Index x y src1.width c src1.bpp)
      = (convolute N src2 dest alg).data (Index x y src1.width c src1.bpp) := by
  rw [convolute_data_in hN src1 dest alg hw1 hbpp1 hx hxw hy hyh hc hcb]
  have h2 := convolute_data_in hN src2 dest alg
    (by rw [hw]; exact hw1) (by rw [hbpp]; exact hbpp1)
    hx (by rw [hw]; exact hxw) hy (by rw [hh]; exact hyh)
    hc (by rw [hbpp]; exact hcb)
  rw [hw, hbpp] at h2
  rw [h2]
  exact getPixelValue_channel_dep src1 src2 alg hw hh hbpp hw1
    hx hxw hy hyh hagree

theorem claim10_witness :
    (convolute 4 chanSrc1 chanDst (algorithms .SHARPEN)).data
        (Index 0 0 chanSrc1.width 1 chanSrc1.bpp)
      = (convolute 4 chanSrc2 chanDst (algorithms .SHARPEN)).data
          (Index 0 0 chanSrc1.width 1 chanSrc1.bpp) :=
  claim10_channel_noninterference (by decide) chanSrc1 chanSrc2 chanDst
    (algorithms .SHARPEN) rfl rfl rfl (by decide) (by decide)
    (show (0:ℤ) ≤ 0 from le_rfl) (by decide)
    (show (0:ℤ) ≤ 0 from le_rfl) (by decide)
    (show (0:ℤ) ≤ 1 by decide) (by decide)
    (fun p h1 h2 => by
      have hwh : chanSrc1.height * chanSrc1.width = 1 := rfl
      rw [hwh] at h2
      have hp : p = 0 := by omega
      subst hp
      rfl)

end ImagePthread
